import Mathlib

/-!
# Verification of the Susan librarian service (attribution / routing / conflict gate)

Shallow embedding of the decision logic of the `ai-susan-5403` repository:

* the path resolver of `reroute_by_path.js` / `reroute_windows.js`,
* the signal scorer `detectProject` (`src/lib/openai.js`, projectDetector section),
* the extraction sorter inserts (`src/services/extractionSorter.js`),
* the quick-parse todo dedup guard (`src/routes/health.js`, quick-parse section),
* the conflict flag/resolve handlers (conflicts routes),
* the dedup sweep passes of the cleaner service
  (`cleanDuplicateKnowledge`, `cleanDuplicateTodos`, `cleanAllDuplicates`).

Text is modelled as `List Char` (JS strings); timestamps as `Nat`; JS numbers
that carry fractional weights/scores as `ℚ`.  Database tables are modelled as
Lean lists of rows; a DB insert is a list append, a DB delete by id-set is a
filter, a DB update by id is a map.
-/

set_option maxHeartbeats 1000000

namespace Susan

/-- JS strings, modelled as lists of characters. -/
abbrev Str := List Char

/-- ASCII lower-casing of one character (model of `String.prototype.toLowerCase`
on the ASCII data this service handles). -/
def lowerChar (c : Char) : Char :=
  if 'A' ≤ c ∧ c ≤ 'Z' then Char.ofNat (c.toNat + 32) else c

/-- `toLowerCase` on a whole string. -/
def lowerStr (s : Str) : Str := s.map lowerChar

/-- JS regex `\w` character class: `[A-Za-z0-9_]`. -/
def isWordChar (c : Char) : Bool :=
  ('a' ≤ c && c ≤ 'z') || ('A' ≤ c && c ≤ 'Z') || ('0' ≤ c && c ≤ '9') || c = '_'

/-- `a` is an initial segment of `b` (model of `String.prototype.startsWith`). -/
def isPre : Str → Str → Bool
  | [], _ => true
  | _ :: _, [] => false
  | a :: as, b :: bs => a == b && isPre as bs

/-- `hay` contains `nd` as a contiguous substring
(model of `String.prototype.includes`). -/
def containsSub : Str → Str → Bool
  | [], nd => isPre nd []
  | c :: t, nd => isPre nd (c :: t) || containsSub t nd

/-! ## Path resolver (`reroute_by_path.js`, `reroute_windows.js`) -/

/-- One element of the `pathLookup` array built by `loadProjectPaths`:
a registered project path together with the owning project's data. -/
structure PathEntry where
  path : Str
  project_id : String
  project_name : String
  client_id : String
deriving DecidableEq, Repr

/-- `itemPath.replace(/\\/g, '/')`. -/
def normalizePath (itemPath : Str) : Str :=
  itemPath.map (fun c => if c = '\\' then '/' else c)

/-- The comparator `(a, b) => b.path.length - a.path.length` of
`pathLookup.sort(...)`: path length descending. -/
def byPathLenDesc (a b : PathEntry) : Prop := b.path.length ≤ a.path.length

instance : DecidableRel byPathLenDesc := fun a b =>
  inferInstanceAs (Decidable (b.path.length ≤ a.path.length))

/-- `findProjectForPath` of `reroute_by_path.js`: guard on a falsy path, then an
exact-equality pass over the lookup, then a prefix pass whose predicate is
`startsWith(p.path + "/") || startsWith(p.path)` (the second disjunct is the
unanchored fallback). -/
def findProjectForPath (itemPath : Str) (pathLookup : List PathEntry) : Option PathEntry :=
  if itemPath = [] then none
  else
    let normalizedPath := normalizePath itemPath
    match pathLookup.find? (fun p => normalizedPath == p.path) with
    | some p => some p
    | none =>
      pathLookup.find? (fun p =>
        isPre (p.path ++ ['/']) normalizedPath || isPre p.path normalizedPath)

/-- `findProjectForPath` of `reroute_windows.js`: a single pass whose predicate
is `linuxPath === p.path || startsWith(p.path + "/") || startsWith(p.path)`
(no separate normalization; the caller already mapped the path to Linux form). -/
def findProjectForPathWin (linuxPath : Str) (pathLookup : List PathEntry) : Option PathEntry :=
  if linuxPath = [] then none
  else
    pathLookup.find? (fun p =>
      linuxPath == p.path || isPre (p.path ++ ['/']) linuxPath || isPre p.path linuxPath)

/-- Scenario B entries: the registered parent path and its deeper `sub` path. -/
def entrySub : PathEntry :=
  ⟨"/var/www/Studio/ai-team/sub".toList, "sub-id", "sub", "client-a"⟩

def entryParent : PathEntry :=
  ⟨"/var/www/Studio/ai-team".toList, "parent-id", "ai-team", "client-a"⟩

/-! ## Signal scorer (`detectProject`, projectDetector section of `src/lib/openai.js`) -/

/-- One registry entry of the `PROJECTS` constant: detection patterns plus a
scalar weight. -/
structure ProjectSig where
  id : String
  name : String
  aliases : List Str
  keywords : List Str
  paths : List Str
  weight : ℚ
deriving DecidableEq, Repr

/-- Case-insensitive character comparison (regex `i` flag, ASCII). -/
def ciEqChar (a b : Char) : Bool := lowerChar a == lowerChar b

/-- Case-insensitive `isPre`. -/
def ciIsPre : Str → Str → Bool
  | [], _ => true
  | _ :: _, [] => false
  | a :: as, b :: bs => ciEqChar a b && ciIsPre as bs

/-- Word-char test of an optional character; the virtual characters beyond the
ends of the string are non-word. -/
def optWord : Option Char → Bool
  | some c => isWordChar c
  | none => false

/-- JS regex `\b`: holds between two (optional) characters iff exactly one of
them is a word char. -/
def wordBoundaryAt (l r : Option Char) : Bool := optWord l != optWord r

/-- Does `\b kw \b` (case-insensitive) match at the start of `rest`, where
`prev` is the character just before `rest` in the full content? -/
def matchesHere (kw : Str) (prev : Option Char) (rest : Str) : Bool :=
  ciIsPre kw rest
  && wordBoundaryAt prev rest.head?
  && wordBoundaryAt ((rest.take kw.length).getLast?) ((rest.drop kw.length).head?)

/-- Left-to-right global scan of `content.match(new RegExp('\\b' + kw + '\\b', 'gi'))`:
count non-overlapping matches, advancing past each match.  The scan consumes at
least one character per step, so `fuel = content.length` bounds it; recursion is
structural on `fuel`. -/
def countMatchesAux (kw : Str) : Nat → Option Char → Str → Nat
  | 0, _, _ => 0
  | _ + 1, _, [] => 0
  | fuel + 1, prev, c :: cs =>
    if matchesHere kw prev (c :: cs) then
      1 + countMatchesAux kw fuel ((List.take kw.length (c :: cs)).getLast?)
            (List.drop kw.length (c :: cs))
    else
      countMatchesAux kw fuel (some c) cs

/-- Number of word-boundary, case-insensitive occurrences of `kw` in
`content` (registry keywords are never empty; the empty pattern counts 0). -/
def countMatches (kw content : Str) : Nat :=
  match kw with
  | [] => 0
  | _ :: _ => countMatchesAux kw content.length none content

/-- The score one registry signature accumulates against `content`:
`3×weight` per alias substring hit on the lowercased content, `2×weight` per
path-fragment substring hit on the raw content, `0.5×weight×count` per
keyword with word-boundary occurrences. -/
def sigScore (config : ProjectSig) (content : Str) : ℚ :=
  let contentLower := lowerStr content
  let s1 := config.aliases.foldl (fun score al =>
    if containsSub contentLower al then score + 3 * config.weight else score) 0
  let s2 := config.paths.foldl (fun score pathPattern =>
    if containsSub content pathPattern then score + 2 * config.weight else score) s1
  config.keywords.foldl (fun score keyword =>
    let c := countMatches keyword content
    if c ≠ 0 then score + (1/2 : ℚ) * c * config.weight else score) s2

/-- Result of `detectProject` (the `reason` string of matched signals is
elided; it never feeds back into control flow). -/
structure DetectResult where
  project : String
  confidence : ℚ
deriving DecidableEq, Repr

/-- `detectProject(content, fallbackProject)`: `none` stands for a non-string
argument, `some []` for the empty string (both falsy / rejected by the typeof
guard).  Scores every signature, keeps the strictly positive ones, picks the
highest by strict improvement in registry order, clamps confidence to
`min(score/10, 1)`, and redirects weak non-fallback winners to the fallback at
confidence `0.1`. -/
def detectProject (registry : List ProjectSig) (content : Option Str)
    (fallbackProject : String) : DetectResult :=
  match content with
  | none => ⟨fallbackProject, 0⟩
  | some c =>
    if c = [] then ⟨fallbackProject, 0⟩
    else
      let scores := registry.filterMap (fun sig =>
        let score := sigScore sig c
        if 0 < score then some (sig.id, score) else none)
      let best := scores.foldl
        (fun best e => if best.2 < e.2 then e else best) (fallbackProject, 0)
      -- `Math.min(bestScore / 10, 1)`
      let confidence : ℚ := if best.2 / 10 ≤ 1 then best.2 / 10 else 1
      if confidence < 3/10 ∧ best.1 ≠ fallbackProject then ⟨fallbackProject, 1/10⟩
      else ⟨best.1, confidence⟩

/-- The `PROJECTS` registry constant, transcribed from the source. -/
def PROJECTS : List ProjectSig := [
  { id := "engine-dev-5101", name := "NextBid Engine",
    aliases := ["engine".toList, "nextbid engine".toList, "auction engine".toList,
      "bidding engine".toList],
    keywords := ["auction".toList, "bid".toList, "bidding".toList, "lot".toList,
      "paddle".toList, "gavel".toList, "hammer".toList, "reserve".toList,
      "increment".toList, "proxy bid".toList, "absentee".toList, "live auction".toList,
      "tradeline".toList, "solicitation".toList, "opportunity".toList, "contract".toList],
    paths := ["engine-dev".toList, "5101".toList, "engine/".toList],
    weight := 1 },
  { id := "source-dev-5102", name := "NextBid Source",
    aliases := ["source".toList, "nextbid source".toList, "source manager".toList,
      "inventory".toList],
    keywords := ["inventory".toList, "consignment".toList, "consignor".toList,
      "pickup".toList, "intake".toList, "catalog item".toList, "item condition".toList,
      "provenance".toList],
    paths := ["source-dev".toList, "5102".toList, "source/".toList],
    weight := 1 },
  { id := "dev-studio-5000", name := "Kodiack Studio",
    aliases := ["studio".toList, "dev studio".toList, "kodiack".toList,
      "kodiack studio".toList, "dev-studio".toList],
    keywords := ["sidebar".toList, "panel".toList, "ai worker".toList, "chad".toList,
      "susan".toList, "clair".toList, "ryan".toList, "terminal".toList,
      "claude code".toList, "mcp".toList],
    paths := ["dev-studio".toList, "5000".toList, "studio/".toList],
    weight := 0.8 },
  { id := "auth-7000", name := "Auth Service",
    aliases := ["auth".toList, "authentication".toList, "auth service".toList],
    keywords := ["login".toList, "logout".toList, "jwt".toList, "token".toList,
      "session".toList, "oauth".toList, "password".toList, "credential".toList],
    paths := ["auth-7000".toList, "7000".toList],
    weight := 1 },
  { id := "ai-workers", name := "AI Workers",
    aliases := ["workers".toList, "ai workers".toList, "ai-workers".toList],
    keywords := ["cataloger".toList, "cleaner".toList, "session detector".toList,
      "project organizer".toList, "knowledge service".toList],
    paths := ["ai-workers/".toList, "chad-5401".toList, "susan-5403".toList,
      "ryan-5402".toList, "clair-5406".toList],
    weight := 0.9 }]

/-! ## Dedup/Retention sweep (`cleanerService.js` duplicate passes)

`cleanDuplicateKnowledge` and `cleanDuplicateTodos` both run

    for (row of rows ordered by created_at ascending) {
      key = `${row.project_path}:${row.title.toLowerCase()}`
      if (seen.has(key)) duplicates.push(seen.get(key).id)
      seen.set(key, row)            // unconditional: the map keeps the newest
    }

while `cleanAllDuplicates` runs

    key = `${row.project_path}:${title.toLowerCase().substring(0, 100)}`
    if (seen.has(key)) duplicates.push(row.id)   // push the current row
    else seen.set(key, row)                      // the map keeps the first

and each pass then deletes every collected id. -/

/-- A row of one of the typed stores, with the columns the sweep selects
(`id, title, project_path, created_at`).  Ids model the UUID column. -/
structure KRow where
  id : Nat
  title : Str
  project_path : Str
  created_at : Nat
deriving DecidableEq, Repr

/-- Dedup key of `cleanDuplicateKnowledge` / `cleanDuplicateTodos`:
`${project_path}:${title.toLowerCase()}` — note: no truncation. -/
def kKey (r : KRow) : Str := r.project_path ++ ':' :: lowerStr r.title

/-- Dedup key of `cleanAllDuplicates`:
`${project_path}:${title.toLowerCase().substring(0, 100)}`. -/
def allKey (r : KRow) : Str := r.project_path ++ ':' :: (lowerStr r.title).take 100

/-- `Map.get` on the insertion-ordered `seen` map. -/
def lookupAssoc (k : Str) : List (Str × KRow) → Option KRow
  | [] => none
  | (k0, v) :: rest => if k0 = k then some v else lookupAssoc k rest

/-- `Map.set`: replace the binding in place, or append a new one. -/
def setAssoc (k : Str) (v : KRow) : List (Str × KRow) → List (Str × KRow)
  | [] => [(k, v)]
  | (k0, v0) :: rest =>
    if k0 = k then (k0, v) :: rest else (k0, v0) :: setAssoc k v rest

/-- The loop of `cleanDuplicateKnowledge` / `cleanDuplicateTodos` (generic in
the key computation, as the two passes differ only in the selected columns):
on a repeated key, the *previously seen* row's id is collected and the map is
re-pointed at the current row, so the newest occurrence ends up kept. -/
def keepLastDups (κ : KRow → Str) (seen : List (Str × KRow)) : List KRow → List Nat
  | [] => []
  | r :: rest =>
    match lookupAssoc (κ r) seen with
    | some prev => prev.id :: keepLastDups κ (setAssoc (κ r) r seen) rest
    | none => keepLastDups κ (setAssoc (κ r) r seen) rest

/-- The loop of `cleanAllDuplicates`: on a repeated key the *current* row's id
is collected and the map entry is left pointing at the first occurrence. -/
def keepFirstDups (κ : KRow → Str) (seen : List (Str × KRow)) : List KRow → List Nat
  | [] => []
  | r :: rest =>
    match lookupAssoc (κ r) seen with
    | some _ => r.id :: keepFirstDups κ seen rest
    | none => keepFirstDups κ (setAssoc (κ r) r seen) rest

/-- Ids deleted by `cleanDuplicateKnowledge` from the knowledge rows (loaded
ordered by `created_at` ascending). -/
def cleanDuplicateKnowledgeDups (knowledge : List KRow) : List Nat :=
  keepLastDups kKey [] knowledge

/-- Ids deleted by `cleanDuplicateTodos` (same loop over `dev_ai_todos`). -/
def cleanDuplicateTodosDups (todos : List KRow) : List Nat :=
  keepLastDups kKey [] todos

/-- Ids deleted by one table pass of `cleanAllDuplicates`. -/
def cleanAllDuplicatesDups (rows : List KRow) : List Nat :=
  keepFirstDups allKey [] rows

/-- Table contents after the `cleanDuplicateKnowledge` pass:
`delete().in('id', duplicates)`. -/
def cleanDuplicateKnowledgeRun (knowledge : List KRow) : List KRow :=
  knowledge.filter (fun r => decide (¬ r.id ∈ cleanDuplicateKnowledgeDups knowledge))

/-- Table contents after one `cleanAllDuplicates` table pass. -/
def cleanAllDuplicatesRun (rows : List KRow) : List KRow :=
  rows.filter (fun r => decide (¬ r.id ∈ cleanAllDuplicatesDups rows))

/-- Keys currently bound in the `seen` map. -/
def keysOf (seen : List (Str × KRow)) : List Str := seen.map Prod.fst

/-- Two knowledge rows with the same dedup key (identical normalized titles,
same scope), the first created earlier. -/
def rowA : KRow := ⟨1, "fix the build".toList, "/var/www/p".toList, 0⟩

def rowB : KRow := ⟨2, "Fix the build".toList, "/var/www/p".toList, 5⟩

/-! ## Conflict & purge gate (`/conflicts/flag`, `/conflicts/resolve` handlers)

State: the `dev_ai_conflicts` table, the `dev_ai_notifications` table, and the
remaining typed tables (keyed by name) that resolutions may touch.  Missing /
null JS string fields are modelled as `""` (both are falsy); DB-generated ids
and clock readings are passed in as parameters. -/

structure ConflictRow where
  id : Nat
  project_id : String
  existing_table : String
  existing_id : String
  existing_content : String
  existing_summary : String
  new_content : String
  new_source : String
  conflict_type : String
  conflict_description : String
  priority : String
  status : String
  resolution_notes : String
  resolved_by : String
  resolved_at : Option Nat
  flagged_by : String
  created_at : Nat
deriving DecidableEq, Repr

structure NotificationRow where
  dev_id : String
  project_id : String
  notification_type : String
  title : String
  message : String
  related_table : String
  related_id : Nat
  status : String
deriving DecidableEq, Repr

/-- A row of one of the typed stores, restricted to the columns the resolve
handler reads or writes. -/
structure GenRow where
  id : String
  project_id : String
  content : String
  source : String
  created_at : Nat
  updated_at : Nat
deriving DecidableEq, Repr

structure SusanState where
  conflicts : List ConflictRow
  notifications : List NotificationRow
  tables : List (String × List GenRow)
deriving DecidableEq, Repr

/-- Body of `POST /conflicts/flag` (destructuring defaults modelled with
`Option` + `getD`). -/
structure FlagRequest where
  project_id : String
  existing_table : String
  existing_id : String
  existing_content : String
  existing_summary : String
  new_content : String
  new_source : String
  conflict_type : Option String
  conflict_description : String
  priority : Option String
deriving DecidableEq, Repr

/-- `POST /conflicts/flag`: validate the three required fields, insert one
pending conflict row, insert one unread notification pointing at it.  No other
write happens in the handler. -/
def flagConflict (st : SusanState) (r : FlagRequest) (newId : Nat) (now : Nat) :
    Except String (SusanState × ConflictRow) :=
  if r.existing_table = "" ∨ r.existing_id = "" ∨ r.new_content = "" then
    .error "Required: existing_table, existing_id, new_content"
  else
    let conflict : ConflictRow := {
      id := newId
      project_id := r.project_id
      existing_table := r.existing_table
      existing_id := r.existing_id
      existing_content := r.existing_content
      existing_summary := r.existing_summary
      new_content := r.new_content
      new_source := r.new_source
      conflict_type := r.conflict_type.getD "contradiction"
      conflict_description := r.conflict_description
      priority := r.priority.getD "medium"
      status := "pending"
      resolution_notes := ""
      resolved_by := ""
      resolved_at := none
      flagged_by := "susan"
      created_at := now }
    let devNote : NotificationRow := {
      dev_id := "assigned"
      project_id := r.project_id
      notification_type := "conflict"
      title := "Knowledge Conflict Detected: " ++ r.conflict_type.getD "contradiction"
      message := if r.conflict_description = ""
        then "New information contradicts existing " ++ r.existing_table ++ " record"
        else r.conflict_description
      related_table := "dev_ai_conflicts"
      related_id := newId
      status := "unread" }
    .ok ({ st with conflicts := st.conflicts ++ [conflict],
                   notifications := st.notifications ++ [devNote] }, conflict)

/-- Body of `POST /conflicts/resolve` (a missing `conflict_id` is `none`). -/
structure ResolveRequest where
  conflict_id : Option Nat
  dev_id : String
  resolution : String
  resolution_notes : String
deriving DecidableEq, Repr

inductive ResolveResponse where
  | badRequest (msg : String)
  | notFound
  | alreadyResolved (status : String)
  | resolved (conflictId : Nat) (resolution : String) (actionTaken : String)
      (resolvedBy : String)
deriving DecidableEq, Repr

/-- `.update(...).eq('id', rowId)` on one named table. -/
def updateTables (tables : List (String × List GenRow)) (name : String)
    (f : GenRow → GenRow) : List (String × List GenRow) :=
  tables.map (fun p => if p.1 = name then (p.1, p.2.map f) else p)

/-- `.insert(row)` into one named table. -/
def insertRow (tables : List (String × List GenRow)) (name : String) (row : GenRow) :
    List (String × List GenRow) :=
  tables.map (fun p => if p.1 = name then (p.1, p.2 ++ [row]) else p)

/-- `POST /conflicts/resolve`: validation, fetch, pending check, then exactly
one resolution effect plus the terminal status transition on the conflict
row. -/
def resolveConflict (st : SusanState) (r : ResolveRequest) (newRowId : String)
    (now : Nat) : ResolveResponse × SusanState :=
  match r.conflict_id with
  | none => (.badRequest "Required: conflict_id, dev_id, resolution", st)
  | some cid =>
    if r.dev_id = "" ∨ r.resolution = "" then
      (.badRequest "Required: conflict_id, dev_id, resolution", st)
    else if ¬ (r.resolution = "keep_existing" ∨ r.resolution = "update"
        ∨ r.resolution = "both_valid" ∨ r.resolution = "dismiss") then
      (.badRequest "Invalid resolution", st)
    else
      match st.conflicts.find? (fun c => c.id == cid) with
      | none => (.notFound, st)
      | some conflict =>
        if conflict.status ≠ "pending" then
          (.alreadyResolved conflict.status, st)
        else
          let tables1 :=
            if r.resolution = "update" then
              updateTables st.tables conflict.existing_table (fun row =>
                if row.id = conflict.existing_id then
                  { row with content := conflict.new_content, updated_at := now }
                else row)
            else if r.resolution = "both_valid" then
              if conflict.existing_table = "dev_ai_knowledge" then
                insertRow st.tables "dev_ai_knowledge"
                  { id := newRowId
                    project_id := conflict.project_id
                    content := conflict.new_content
                    source := if conflict.new_source = "" then "conflict_resolution"
                      else conflict.new_source
                    created_at := now
                    updated_at := now }
              else st.tables
            else st.tables
          let actionTaken :=
            if r.resolution = "update" then
              "Updated " ++ conflict.existing_table ++ " record with new content"
            else if r.resolution = "both_valid" then
              if conflict.existing_table = "dev_ai_knowledge" then
                "Created new knowledge record - both are valid"
              else ""
            else if r.resolution = "keep_existing" then
              "Kept existing record, discarded new content"
            else "Conflict dismissed"
          let conflicts1 := st.conflicts.map (fun c =>
            if c.id = cid then
              { c with status := "resolved_" ++ r.resolution
                       resolution_notes := if r.resolution_notes = "" then actionTaken
                         else r.resolution_notes
                       resolved_by := r.dev_id
                       resolved_at := some now }
            else c)
          (.resolved cid r.resolution actionTaken r.dev_id,
           { st with conflicts := conflicts1, tables := tables1 })

def flagStateEx : SusanState := {
  conflicts := []
  notifications := []
  tables := [("dev_ai_knowledge", [⟨"k1", "p1", "old content", "extraction", 0, 0⟩])] }

def flagReqEx : FlagRequest := {
  project_id := "p1"
  existing_table := "dev_ai_knowledge"
  existing_id := "k1"
  existing_content := "old content"
  existing_summary := ""
  new_content := "new content"
  new_source := "session"
  conflict_type := none
  conflict_description := ""
  priority := none }

def resolvedConflictEx : ConflictRow := {
  id := 3
  project_id := "p1"
  existing_table := "dev_ai_knowledge"
  existing_id := "k1"
  existing_content := "old"
  existing_summary := ""
  new_content := "new"
  new_source := ""
  conflict_type := "contradiction"
  conflict_description := ""
  priority := "medium"
  status := "resolved_update"
  resolution_notes := "Updated dev_ai_knowledge record with new content"
  resolved_by := "dev-1"
  resolved_at := some 50
  flagged_by := "susan"
  created_at := 10 }

def resolveStateEx : SusanState := {
  conflicts := [resolvedConflictEx]
  notifications := []
  tables := [("dev_ai_knowledge", [⟨"k1", "p1", "new", "extraction", 0, 50⟩])] }

def resolveReqEx : ResolveRequest := {
  conflict_id := some 3
  dev_id := "dev-2"
  resolution := "dismiss"
  resolution_notes := "" }

/-! ## Extraction sorter inserts, quick-parse dedup guard, batch rerouter

The sorter's `insert*` helpers build one row object and insert it — there is
no pre-insert existence check in `sortExtraction` / `insertKnowledge` /
`insertTodo`.  The only title-prefix dedup guard in the repository sits in the
quick-parse route's todo-mention loop.  Payloads are also modelled as
column-name/value lists to reason about which columns are persisted. -/

inductive JsVal where
  | s (v : Str)
  | id (v : String)
  | num (v : ℚ)
  | nul
deriving DecidableEq, Repr

def optStrVal : Option Str → JsVal
  | some s => .s s
  | none => .nul

def optIdVal : Option String → JsVal
  | some s => .id s
  | none => .nul

/-- A row of `dev_ai_smart_extractions` (the columns the sorter reads). -/
structure Extraction where
  id : Nat
  category : Option String
  content : Str
  project_path : Option Str
  priority : Option String
  session_id : Option String
deriving DecidableEq, Repr

/-- Denormalized routing ids resolved from a project path. -/
structure RoutingInfo where
  client_id : Option String
  platform_id : Option String
  project_id : Option String
deriving DecidableEq, Repr

/-- `content.substring(0, 200).split('\n')[0]`: first line of the truncated
content, used as the row title. -/
def firstLine200 (content : Str) : Str :=
  (content.take 200).takeWhile (fun c => c != '\n')

/-- `mapPriority`: `{low, normal, high, critical}` to store values, default
`'medium'`. -/
def mapPriority (priority : Option String) : String :=
  match priority with
  | some "low" => "low"
  | some "normal" => "medium"
  | some "high" => "high"
  | some "critical" => "critical"
  | _ => "medium"

/-- `projectPath || '/var/www/NextBid_Dev/dev-studio-5000'` in `insertTodo`:
a falsy (missing or empty) path is replaced by the hard-coded studio path. -/
def orDefaultStudioPath (projectPath : Option Str) : Str :=
  match projectPath with
  | some s => if s = [] then "/var/www/NextBid_Dev/dev-studio-5000".toList else s
  | none => "/var/www/NextBid_Dev/dev-studio-5000".toList

/-- The column/value payload of the `insertTodo` insert, in source order. -/
def insertTodoPayload (extraction : Extraction) (projectPath : Option Str)
    (routing : RoutingInfo) : List (String × JsVal) :=
  [("project_path", .s (orDefaultStudioPath projectPath)),
   ("title", .s (firstLine200 extraction.content)),
   ("description", .s extraction.content),
   ("priority", .id (mapPriority extraction.priority)),
   ("status", .id "pending"),
   ("source_session_id", optIdVal extraction.session_id),
   ("client_id", optIdVal routing.client_id),
   ("platform_id", optIdVal routing.platform_id),
   ("project_id", optIdVal routing.project_id)]

/-- The column/value payload of the `insertKnowledge` insert, in source order
(no default is applied to the path and no confidence column exists). -/
def insertKnowledgePayload (extraction : Extraction) (projectPath : Option Str)
    (routing : RoutingInfo) : List (String × JsVal) :=
  [("project_path", optStrVal projectPath),
   ("title", .s (firstLine200 extraction.content)),
   ("content", .s extraction.content),
   ("category", .id (extraction.category.getD "general")),
   ("source_session_id", optIdVal extraction.session_id),
   ("client_id", optIdVal routing.client_id),
   ("platform_id", optIdVal routing.platform_id),
   ("project_id", optIdVal routing.project_id)]

/-- A `dev_ai_knowledge` row as the sorter writes it. -/
structure KnowledgeTRow where
  project_path : Option Str
  title : Str
  content : Str
  category : String
  source_session_id : Option String
  client_id : Option String
  platform_id : Option String
  project_id : Option String
deriving DecidableEq, Repr

/-- Table-level effect of `insertKnowledge`: an unconditional append — the
sorter performs no existence check before this insert. -/
def insertKnowledgeStep (tbl : List KnowledgeTRow) (extraction : Extraction)
    (projectPath : Option Str) (routing : RoutingInfo) : List KnowledgeTRow :=
  tbl ++ [{ project_path := projectPath
            title := firstLine200 extraction.content
            content := extraction.content
            category := extraction.category.getD "general"
            source_session_id := extraction.session_id
            client_id := routing.client_id
            platform_id := routing.platform_id
            project_id := routing.project_id }]

/-- A `dev_ai_todos` row as the quick-parse route writes it. -/
structure TodoRow where
  project_path : Str
  title : Str
  status : String
  priority : String
  source : String
  created_at : Nat
  client_id : Option String
  platform_id : Option String
  project_id : Option String
deriving DecidableEq, Repr

/-- `ilike('%needle%')`: case-insensitive substring containment. -/
def containsCI (hay nd : Str) : Bool := containsSub (lowerStr hay) (lowerStr nd)

/-- One todo-mention step of `POST /quick-parse`: look for an existing todo in
the same scope whose title contains the mention's 30-char head
(case-insensitive); insert only when none exists. -/
def quickParseTodoStep (todos : List TodoRow) (projectPath : Str) (todoText : Str)
    (routing : RoutingInfo) (now : Nat) : List TodoRow :=
  match todos.find? (fun t => t.project_path == projectPath
      && containsCI t.title (todoText.take 30)) with
  | some _ => todos
  | none => todos ++ [{
      project_path := projectPath
      title := todoText.take 200
      status := "pending"
      priority := "medium"
      source := "quick-parse"
      created_at := now
      client_id := routing.client_id
      platform_id := routing.platform_id
      project_id := routing.project_id }]

/-- The object the (externally loaded) project detector hands back to its
callers, as consumed by `reroute_table` scripts and the sorter. -/
structure DetectedProj where
  project_id : String
  client_id : Option String
  project_name : String
  server_path : Str
  confidence : ℚ
deriving DecidableEq, Repr

/-- The update payload of the batch rerouter (`rerouteTable` of the
projectDetector reroute script): only the three attribution columns. -/
def rerouteUpdatePayload (detected : DetectedProj) : List (String × JsVal) :=
  [("project_id", .id detected.project_id),
   ("client_id", optIdVal detected.client_id),
   ("project_path", .s detected.server_path)]

def MIN_CONFIDENCE : ℚ := 0.2

/-- Per-item decision of `rerouteTable`: update only when a project was
detected with truthy `project_id` and `confidence >= MIN_CONFIDENCE`; the
confidence itself is used only for this gate and never written. -/
def rerouteItemStep (detected : Option DetectedProj) : Option (List (String × JsVal)) :=
  match detected with
  | some d =>
    if d.project_id ≠ "" ∧ MIN_CONFIDENCE ≤ d.confidence
    then some (rerouteUpdatePayload d) else none
  | none => none

def qex : Extraction :=
  ⟨1, some "todo", "Fix the flaky retry loop".toList, none, none, some "s1"⟩

def dupExtraction : Extraction :=
  ⟨1, some "knowledge", "Fix: restart the stuck worker".toList, none, none, some "s1"⟩

def dupTable : List KnowledgeTRow :=
  insertKnowledgeStep [] dupExtraction (some "/var/www/p".toList) ⟨none, none, none⟩

def qpTodoEx : TodoRow :=
  ⟨"/var/www/p".toList, "Fix login retry handling".toList, "pending", "medium",
   "quick-parse", 0, none, none, none⟩

def detEx : DetectedProj := ⟨"p1", some "c1", "proj", "/var/www/p".toList, 1/2⟩

/-! ## Theorems -/

theorem isPre_refl (l : Str) : isPre l l = true := by
  induction l with
  | nil => rfl
  | cons c t ih => simp [isPre, ih]

theorem isPre_length {a b : Str} (h : isPre a b = true) : a.length ≤ b.length := by
  induction a generalizing b with
  | nil => simp
  | cons c t ih =>
    cases b with
    | nil => simp [isPre] at h
    | cons d u =>
      simp only [isPre, Bool.and_eq_true] at h
      simpa [Nat.succ_le_succ_iff] using ih h.2

/-- Dropping a suffix of the pattern preserves the `isPre` test. -/
theorem isPre_of_append {a t b : Str} (h : isPre (a ++ t) b = true) : isPre a b = true := by
  induction a generalizing b with
  | nil => rfl
  | cons c u ih =>
    cases b with
    | nil => simp [isPre] at h
    | cons d v =>
      simp only [List.cons_append, isPre, Bool.and_eq_true] at h ⊢
      exact ⟨h.1, ih h.2⟩

/-- `find?` decomposition: a successful search splits the list at the first hit. -/
theorem find?_decomp {α : Type} {p : α → Bool} {l : List α} {a : α}
    (h : l.find? p = some a) :
    ∃ s t, l = s ++ a :: t ∧ ∀ x ∈ s, p x = false := by
  induction l with
  | nil => simp [List.find?] at h
  | cons c u ih =>
    by_cases hc : p c = true
    · rw [List.find?_cons_of_pos _ hc] at h
      obtain rfl : c = a := by simpa using h
      exact ⟨[], u, rfl, by simp⟩
    · rw [List.find?_cons_of_neg _ (by simpa using hc)] at h
      obtain ⟨s, t, hl, hs⟩ := ih h
      exact ⟨c :: s, t, by simp [hl], by
        intro x hx
        rcases List.mem_cons.mp hx with rfl | hx
        · simpa using hc
        · exact hs x hx⟩

theorem isPre_eq_of_length {a b : Str} (h : isPre a b = true) (hl : b.length ≤ a.length) :
    a = b := by
  induction a generalizing b with
  | nil =>
    cases b with
    | nil => rfl
    | cons d v => simp at hl
  | cons c u ih =>
    cases b with
    | nil => simp [isPre] at h
    | cons d v =>
      simp only [isPre, Bool.and_eq_true, beq_iff_eq] at h
      simp only [List.length_cons, Nat.succ_le_succ_iff] at hl
      rw [h.1, ih h.2 hl]

/-- C3 failing input, evaluated on the code: with only `/proj` registered, the
raw path `/project2/x` is neither exactly `/proj` nor under `/proj/`, yet both
resolvers return the `/proj` entry through the unanchored
`startsWith(p.path)` fallback. -/
theorem findProjectForPath_unanchored_match :
    (¬ normalizePath "/project2/x".toList = "/proj".toList)
    ∧ isPre ("/proj".toList ++ ['/']) (normalizePath "/project2/x".toList) = false
    ∧ findProjectForPath "/project2/x".toList
        [⟨"/proj".toList, "p1", "proj", "c1"⟩] = some ⟨"/proj".toList, "p1", "proj", "c1"⟩
    ∧ findProjectForPathWin "/project2/x".toList
        [⟨"/proj".toList, "p1", "proj", "c1"⟩] = some ⟨"/proj".toList, "p1", "proj", "c1"⟩ := by
  decide

/-- C4: on a lookup sorted by path length descending (as `loadProjectPaths`
builds it), any raw path lying under the deeper of two nested registered paths
resolves to an entry at least as deep as the deeper path — never to the
shorter prefix. -/
theorem longest_matching_path_wins (pathLookup : List PathEntry) (p1 p2 : PathEntry)
    (hsort : pathLookup.Pairwise byPathLenDesc)
    (hp2 : p2 ∈ pathLookup)
    (hpre : isPre p1.path p2.path = true) (hne : p1.path ≠ p2.path)
    (raw : Str)
    (hunder : normalizePath raw = p2.path
      ∨ isPre (p2.path ++ ['/']) (normalizePath raw) = true) :
    ∃ r, findProjectForPath raw pathLookup = some r
      ∧ p2.path.length ≤ r.path.length ∧ r.path ≠ p1.path := by
  have hlt : p1.path.length < p2.path.length := by
    rcases Nat.lt_or_ge p1.path.length p2.path.length with h | h
    · exact h
    · exact absurd (isPre_eq_of_length hpre h) hne
  have hnlen : p2.path.length ≤ (normalizePath raw).length := by
    rcases hunder with h | h
    · rw [h]
    · have := isPre_length h
      simp only [List.length_append, List.length_cons, List.length_nil] at this
      omega
  have hraw : ¬ raw = [] := by
    intro hr
    subst hr
    have h0 : (normalizePath []).length = 0 := rfl
    omega
  rcases hfind : pathLookup.find? (fun p => normalizePath raw == p.path) with _ | p
  · -- no exact hit: `p2` must match the boundary-safe alternative in pass two
    have hall := List.find?_eq_none.mp hfind
    have hb : isPre (p2.path ++ ['/']) (normalizePath raw) = true := by
      rcases hunder with h | h
      · exact absurd (by simpa using h) (by simpa using hall p2 hp2)
      · exact h
    have hp2pred : (isPre (p2.path ++ ['/']) (normalizePath raw)
        || isPre p2.path (normalizePath raw)) = true := by simp [hb]
    rcases hfind2 : pathLookup.find? (fun p =>
        isPre (p.path ++ ['/']) (normalizePath raw) || isPre p.path (normalizePath raw))
      with _ | r
    · exact absurd hp2pred (by simpa using List.find?_eq_none.mp hfind2 p2 hp2)
    · have hrlen : p2.path.length ≤ r.path.length := by
        obtain ⟨s, t, hl, hs⟩ := find?_decomp hfind2
        subst hl
        rcases List.mem_append.mp hp2 with h | h
        · exact absurd hp2pred (by simpa using hs p2 h)
        · rcases List.mem_cons.mp h with rfl | h
          · exact le_refl _
          · exact (List.pairwise_cons.mp (List.pairwise_append.mp hsort).2.1).1 p2 h
      refine ⟨r, ?_, hrlen, ?_⟩
      · simp only [findProjectForPath, if_neg hraw, hfind, hfind2]
      · intro hrp
        rw [hrp] at hrlen
        omega
  · have hpeq : normalizePath raw = p.path := by
      have := List.find?_some hfind
      simpa using this
    refine ⟨p, ?_, by rw [← hpeq]; omega, ?_⟩
    · simp only [findProjectForPath, if_neg hraw, hfind]
    · intro hip
      rw [hip] at hpeq
      have : (normalizePath raw).length = p1.path.length := by rw [hpeq]
      omega

/-- Witness for `longest_matching_path_wins`: Scenario B of the spec, with the
lookup sorted longest-first as `loadProjectPaths` produces it. -/
theorem longest_matching_path_wins_witness :
    ([entrySub, entryParent].Pairwise byPathLenDesc
      ∧ entrySub ∈ [entrySub, entryParent]
      ∧ isPre entryParent.path entrySub.path = true
      ∧ entryParent.path ≠ entrySub.path
      ∧ isPre (entrySub.path ++ ['/'])
          (normalizePath "/var/www/Studio/ai-team/sub/file.js".toList) = true)
    ∧ ∃ r, findProjectForPath "/var/www/Studio/ai-team/sub/file.js".toList
            [entrySub, entryParent] = some r
        ∧ entrySub.path.length ≤ r.path.length ∧ r.path ≠ entryParent.path :=
  ⟨by decide,
   longest_matching_path_wins [entrySub, entryParent] entryParent entrySub
     (by decide) (by decide) (by decide) (by decide)
     "/var/www/Studio/ai-team/sub/file.js".toList (Or.inr (by decide))⟩

/-- The best-score fold never drops below its starting score. -/
theorem foldl_best_nonneg (l : List (String × ℚ)) (b : String × ℚ) (hb : 0 ≤ b.2) :
    0 ≤ (l.foldl (fun b e => if b.2 < e.2 then e else b) b).2 := by
  induction l generalizing b with
  | nil => exact hb
  | cons e t ih =>
    simp only [List.foldl_cons]
    by_cases h : b.2 < e.2
    · rw [if_pos h]
      exact ih e (hb.trans h.le)
    · rw [if_neg h]
      exact ih b hb

/-- The best-score fold returns its start value or a list element. -/
theorem foldl_best_eq_init_or_mem (l : List (String × ℚ)) (b : String × ℚ) :
    l.foldl (fun b e => if b.2 < e.2 then e else b) b = b
    ∨ (l.foldl (fun b e => if b.2 < e.2 then e else b) b) ∈ l := by
  induction l generalizing b with
  | nil => exact Or.inl rfl
  | cons e t ih =>
    simp only [List.foldl_cons]
    by_cases h : b.2 < e.2
    · rw [if_pos h]
      rcases ih e with h1 | h1
      · right
        rw [h1]
        exact List.mem_cons_self _ _
      · exact Or.inr (List.mem_cons_of_mem _ h1)
    · rw [if_neg h]
      rcases ih b with h1 | h1
      · exact Or.inl h1
      · exact Or.inr (List.mem_cons_of_mem _ h1)

/-- Unfolding of `detectProject` on a non-empty string input. -/
theorem detectProject_some_eq (registry : List ProjectSig) (c : Str) (fb : String)
    (hc : ¬ c = []) :
    detectProject registry (some c) fb =
      (if (if ((registry.filterMap (fun sig =>
              let score := sigScore sig c
              if 0 < score then some (sig.id, score) else none)).foldl
                (fun best e => if best.2 < e.2 then e else best) (fb, 0)).2 / 10 ≤ 1
            then ((registry.filterMap (fun sig =>
              let score := sigScore sig c
              if 0 < score then some (sig.id, score) else none)).foldl
                (fun best e => if best.2 < e.2 then e else best) (fb, 0)).2 / 10
            else 1) < 3/10
          ∧ ((registry.filterMap (fun sig =>
              let score := sigScore sig c
              if 0 < score then some (sig.id, score) else none)).foldl
                (fun best e => if best.2 < e.2 then e else best) (fb, 0)).1 ≠ fb
       then ⟨fb, 1/10⟩
       else ⟨((registry.filterMap (fun sig =>
              let score := sigScore sig c
              if 0 < score then some (sig.id, score) else none)).foldl
                (fun best e => if best.2 < e.2 then e else best) (fb, 0)).1,
             if ((registry.filterMap (fun sig =>
              let score := sigScore sig c
              if 0 < score then some (sig.id, score) else none)).foldl
                (fun best e => if best.2 < e.2 then e else best) (fb, 0)).2 / 10 ≤ 1
             then ((registry.filterMap (fun sig =>
              let score := sigScore sig c
              if 0 < score then some (sig.id, score) else none)).foldl
                (fun best e => if best.2 < e.2 then e else best) (fb, 0)).2 / 10
             else 1⟩) := by
  simp only [detectProject, if_neg hc]

/-- C8: for every registry, input and fallback, `detectProject` returns a
confidence in the closed interval `[0, 1]`, and on a missing / non-string /
empty input it returns the fallback project at confidence exactly `0`. -/
theorem detect_confidence_unit_range (registry : List ProjectSig)
    (content : Option Str) (fallbackProject : String) :
    0 ≤ (detectProject registry content fallbackProject).confidence
    ∧ (detectProject registry content fallbackProject).confidence ≤ 1
    ∧ ((content = none ∨ content = some []) →
        detectProject registry content fallbackProject = ⟨fallbackProject, 0⟩) := by
  cases content with
  | none => exact ⟨le_refl 0, zero_le_one, fun _ => rfl⟩
  | some c =>
    by_cases hc : c = []
    · subst hc
      exact ⟨le_refl 0, zero_le_one, fun _ => rfl⟩
    · have hno : ¬ (some c = none ∨ some c = some ([] : Str)) := by
        rintro (h | h)
        · exact Option.noConfusion h
        · exact hc (Option.some.inj h)
      rw [detectProject_some_eq registry c fallbackProject hc]
      set best := (registry.filterMap (fun sig =>
        let score := sigScore sig c
        if 0 < score then some (sig.id, score) else none)).foldl
          (fun best e => if best.2 < e.2 then e else best) (fallbackProject, 0) with hb
      have h0 : 0 ≤ best.2 := foldl_best_nonneg _ _ (le_refl 0)
      have hconf : 0 ≤ (if best.2 / 10 ≤ 1 then best.2 / 10 else 1)
          ∧ (if best.2 / 10 ≤ 1 then best.2 / 10 else 1) ≤ 1 := by
        split_ifs with h
        · exact ⟨div_nonneg h0 (by norm_num), h⟩
        · exact ⟨zero_le_one, le_refl 1⟩
      by_cases hcond : (if best.2 / 10 ≤ 1 then best.2 / 10 else 1) < 3/10
          ∧ best.1 ≠ fallbackProject
      · rw [if_pos hcond]
        exact ⟨by norm_num, by norm_num, fun h => absurd h hno⟩
      · rw [if_neg hcond]
        exact ⟨hconf.1, hconf.2, fun h => absurd h hno⟩

/-- C10 counterexample: on `"auction auction"` with fallback
`"engine-dev-5101"`, the only signature scoring any point is the fallback
itself (score exactly `1`), yet `detectProject` returns confidence exactly
`0.1` — so `0.1` does not arise only from a positive-scoring *non-fallback*
signature. -/
theorem detect_low_confidence_from_fallback_itself :
    detectProject PROJECTS (some "auction auction".toList) "engine-dev-5101"
      = ⟨"engine-dev-5101", 1/10⟩
    ∧ (PROJECTS.all (fun sig =>
        sig.id == "engine-dev-5101" || sigScore sig "auction auction".toList == 0)) = true
    ∧ (∃ sig ∈ PROJECTS, sig.id = "engine-dev-5101"
        ∧ sigScore sig "auction auction".toList = 1)
    ∧ "auction auction".toList ≠ [] := by
  refine ⟨?_, ?_, ?_, ?_⟩
  · with_unfolding_all decide
  · with_unfolding_all decide
  · with_unfolding_all decide
  · decide

/-- C10 (amended): on a non-empty input where no signature scores any point,
`detectProject` returns the fallback at confidence exactly `0`; and a returned
confidence of exactly `0.1` only ever arises when some signature (possibly the
fallback itself) scored positive but below the `0.3` threshold (score `< 3`). -/
theorem detect_zero_when_nothing_scores (registry : List ProjectSig) (c : Str)
    (fallbackProject : String) (hc : c ≠ []) :
    ((∀ sig ∈ registry, sigScore sig c = 0) →
      detectProject registry (some c) fallbackProject = ⟨fallbackProject, 0⟩)
    ∧ ((detectProject registry (some c) fallbackProject).confidence = 1/10 →
      ∃ sig ∈ registry, 0 < sigScore sig c ∧ sigScore sig c < 3) := by
  rw [detectProject_some_eq registry c fallbackProject hc]
  set scores := registry.filterMap (fun sig =>
    let score := sigScore sig c
    if 0 < score then some (sig.id, score) else none) with hscores
  set best := scores.foldl (fun best e => if best.2 < e.2 then e else best)
    (fallbackProject, 0) with hbest
  have hmem : best = (fallbackProject, (0 : ℚ)) ∨ best ∈ scores :=
    foldl_best_eq_init_or_mem _ _
  have hof : ∀ x ∈ scores, ∃ sig ∈ registry, 0 < sigScore sig c
      ∧ x = (sig.id, sigScore sig c) := by
    intro x hx
    rw [hscores] at hx
    obtain ⟨sig, hsig, hx⟩ := List.mem_filterMap.mp hx
    simp only at hx
    by_cases hpos : 0 < sigScore sig c
    · rw [if_pos hpos] at hx
      exact ⟨sig, hsig, hpos, (Option.some.inj hx).symm⟩
    · rw [if_neg hpos] at hx
      exact absurd hx (Option.noConfusion ·)
  constructor
  · intro hzero
    have hnil : scores = [] := by
      rw [hscores]
      apply List.filterMap_eq_nil_iff.mpr
      intro sig hsig
      simp only
      rw [if_neg (by rw [hzero sig hsig]; exact lt_irrefl 0)]
    have hbe : best = (fallbackProject, (0 : ℚ)) := by
      rw [hbest, hnil]
      rfl
    rw [hbe]
    norm_num
  · intro hres
    -- the returned confidence is `1/10`: in either branch the best score is
    -- positive and below `3`, and comes from some signature
    have hbpos : 0 < best.2 ∧ best.2 < 3 := by
      by_cases hcond : (if best.2 / 10 ≤ 1 then best.2 / 10 else 1) < 3/10
          ∧ best.1 ≠ fallbackProject
      · rw [if_pos hcond] at hres
        have hlt3 : best.2 < 3 := by
          rcases hcond with ⟨hlt, -⟩
          by_cases hle : best.2 / 10 ≤ 1
          · rw [if_pos hle] at hlt
            linarith [hlt]
          · rw [if_neg hle] at hlt
            norm_num at hlt
        have hne : best ≠ (fallbackProject, (0 : ℚ)) := by
          intro habs
          exact hcond.2 (by rw [habs])
        rcases hmem with habs | hin
        · exact absurd habs hne
        · obtain ⟨sig, -, hpos, hx⟩ := hof best hin
          exact ⟨by rw [hx]; exact hpos, hlt3⟩
      · rw [if_neg hcond] at hres
        have hres2 : (if best.2 / 10 ≤ 1 then best.2 / 10 else 1) = 1/10 := hres
        by_cases hle : best.2 / 10 ≤ 1
        · rw [if_pos hle] at hres2
          have hb1 : best.2 = 1 := by
            field_simp at hres2
            linarith
          constructor
          · rw [hb1]; norm_num
          · rw [hb1]; norm_num
        · rw [if_neg hle] at hres2
          norm_num at hres2
    have hne0 : best ≠ (fallbackProject, (0 : ℚ)) := by
      intro habs
      rw [habs] at hbpos
      exact lt_irrefl 0 hbpos.1
    rcases hmem with habs | hin
    · exact absurd habs hne0
    · obtain ⟨sig, hsig, hpos, hx⟩ := hof best hin
      refine ⟨sig, hsig, hpos, ?_⟩
      have : best.2 = sigScore sig c := by rw [hx]
      rw [← this]
      exact hbpos.2

/-- Witness for `detect_zero_when_nothing_scores`: the registry constant and
the concrete no-signal input `"qqq"`. -/
theorem detect_zero_when_nothing_scores_witness :
    "qqq".toList ≠ []
    ∧ (∀ sig ∈ PROJECTS, sigScore sig "qqq".toList = 0)
    ∧ detectProject PROJECTS (some "qqq".toList) "dev-studio-5000"
        = ⟨"dev-studio-5000", 0⟩ := by
  refine ⟨by decide, by with_unfolding_all decide, ?_⟩
  exact (detect_zero_when_nothing_scores PROJECTS "qqq".toList "dev-studio-5000"
    (by decide)).1 (by with_unfolding_all decide)

theorem keysOf_nil : keysOf [] = [] := rfl

theorem keysOf_cons (k0 : Str) (v0 : KRow) (rest : List (Str × KRow)) :
    keysOf ((k0, v0) :: rest) = k0 :: keysOf rest := rfl

theorem lookupAssoc_eq_none_iff (k : Str) (seen : List (Str × KRow)) :
    lookupAssoc k seen = none ↔ k ∉ keysOf seen := by
  induction seen with
  | nil => simp [lookupAssoc, keysOf_nil]
  | cons p rest ih =>
    obtain ⟨k0, v⟩ := p
    rw [keysOf_cons]
    by_cases h : k0 = k
    · subst h
      refine iff_of_false ?_ ?_
      · simp [lookupAssoc]
      · simp
    · simp only [lookupAssoc, if_neg h, List.mem_cons]
      rw [ih]
      constructor
      · rintro hn (h1 | h1)
        · exact h h1.symm
        · exact hn h1
      · intro hn h1
        exact hn (Or.inr h1)

theorem lookupAssoc_setAssoc_self (k : Str) (v : KRow) (seen : List (Str × KRow)) :
    lookupAssoc k (setAssoc k v seen) = some v := by
  induction seen with
  | nil => simp [setAssoc, lookupAssoc]
  | cons p rest ih =>
    obtain ⟨k0, v0⟩ := p
    by_cases h : k0 = k
    · rw [setAssoc, if_pos h, lookupAssoc, if_pos h]
    · rw [setAssoc, if_neg h, lookupAssoc, if_neg h]
      exact ih

theorem lookupAssoc_setAssoc_ne (k k0 : Str) (v : KRow) (seen : List (Str × KRow))
    (h : k ≠ k0) : lookupAssoc k (setAssoc k0 v seen) = lookupAssoc k seen := by
  have hk0 : ¬ k0 = k := Ne.symm h
  induction seen with
  | nil =>
    simp [setAssoc, lookupAssoc, hk0]
  | cons p rest ih =>
    obtain ⟨k1, v1⟩ := p
    by_cases h1 : k1 = k0
    · have hk1 : ¬ k1 = k := by
        rw [h1]
        exact hk0
      rw [setAssoc, if_pos h1, lookupAssoc, if_neg hk1, lookupAssoc, if_neg hk1]
    · by_cases h2 : k1 = k
      · rw [setAssoc, if_neg h1, lookupAssoc, if_pos h2, lookupAssoc, if_pos h2]
      · rw [setAssoc, if_neg h1, lookupAssoc, if_neg h2, lookupAssoc, if_neg h2]
        exact ih

theorem mem_keysOf_setAssoc (k2 k : Str) (v : KRow) (seen : List (Str × KRow)) :
    k2 ∈ keysOf (setAssoc k v seen) ↔ k2 = k ∨ k2 ∈ keysOf seen := by
  induction seen with
  | nil => simp [setAssoc, keysOf_cons, keysOf_nil]
  | cons p rest ih =>
    obtain ⟨k0, v0⟩ := p
    by_cases h : k0 = k
    · rw [setAssoc, if_pos h, keysOf_cons, keysOf_cons]
      subst h
      simp only [List.mem_cons]
      tauto
    · rw [setAssoc, if_neg h, keysOf_cons, keysOf_cons]
      simp only [List.mem_cons]
      rw [ih]
      tauto

/-- Splitting decompositions of a cons list: the marked element is the head, or
it sits in the tail. -/
theorem cons_decomp_iff {α : Type} (a : α) (l : List α) (P : List α → α → List α → Prop) :
    (∃ s m t, a :: l = s ++ m :: t ∧ P s m t) ↔
      P [] a l ∨ ∃ s m t, l = s ++ m :: t ∧ P (a :: s) m t := by
  constructor
  · rintro ⟨s, m, t, h, hp⟩
    cases s with
    | nil =>
      simp only [List.nil_append, List.cons.injEq] at h
      obtain ⟨rfl, rfl⟩ := h
      exact Or.inl hp
    | cons b s2 =>
      rw [List.cons_append] at h
      injection h with h1 h2
      subst h1
      exact Or.inr ⟨s2, m, t, h2, hp⟩
  · rintro (hp | ⟨s, m, t, h, hp⟩)
    · exact ⟨[], a, l, rfl, hp⟩
    · exact ⟨a :: s, m, t, by rw [h, List.cons_append], hp⟩

/-- Unique decomposition around an element absent from both side lists. -/
theorem append_cons_eq_of_not_mem {α : Type} {a : α} {s1 t1 s2 t2 : List α}
    (h : s1 ++ a :: t1 = s2 ++ a :: t2) (h1 : a ∉ s1) (h2 : a ∉ s2) :
    s1 = s2 ∧ t1 = t2 := by
  induction s1 generalizing s2 with
  | nil =>
    cases s2 with
    | nil =>
      simp only [List.nil_append, List.cons.injEq] at h
      exact ⟨rfl, h.2⟩
    | cons b s3 =>
      simp only [List.nil_append, List.cons_append, List.cons.injEq] at h
      exact absurd (by rw [h.1]; exact List.mem_cons_self _ _) h2
  | cons b s3 ih =>
    cases s2 with
    | nil =>
      simp only [List.cons_append, List.nil_append, List.cons.injEq] at h
      exact absurd (by rw [← h.1]; exact List.mem_cons_self _ _) h1
    | cons c s4 =>
      simp only [List.cons_append, List.cons.injEq] at h
      obtain ⟨rfl, h⟩ := h
      have hr := ih h (fun hm => h1 (List.mem_cons_of_mem _ hm))
        (fun hm => h2 (List.mem_cons_of_mem _ hm))
      exact ⟨by rw [hr.1], hr.2⟩

/-- Characterization of the ids collected by the `cleanAllDuplicates` loop:
exactly the rows whose key is already bound in `seen` or occurs earlier in the
list. -/
theorem keepFirstDups_mem (κ : KRow → Str) (rows : List KRow) :
    ∀ (seen : List (Str × KRow)) (x : Nat),
    x ∈ keepFirstDups κ seen rows ↔
      ∃ s r t, rows = s ++ r :: t ∧ x = r.id
        ∧ (κ r ∈ keysOf seen ∨ ∃ q ∈ s, κ q = κ r) := by
  induction rows with
  | nil =>
    intro seen x
    rw [keepFirstDups]
    refine iff_of_false (List.not_mem_nil x) ?_
    rintro ⟨s, r, t, h, -⟩
    exact List.cons_ne_nil r t (List.append_eq_nil.mp h.symm).2
  | cons r rest ih =>
    intro seen x
    rw [cons_decomp_iff r rest
      (fun s m t => x = m.id ∧ (κ m ∈ keysOf seen ∨ ∃ q ∈ s, κ q = κ m))]
    rcases hlk : lookupAssoc (κ r) seen with _ | prev
    · have hnotk : κ r ∉ keysOf seen := (lookupAssoc_eq_none_iff _ _).mp hlk
      simp only [keepFirstDups, hlk]
      rw [ih (setAssoc (κ r) r seen) x]
      constructor
      · rintro ⟨s, m, t, hrest, hx, hcond⟩
        refine Or.inr ⟨s, m, t, hrest, hx, ?_⟩
        rcases hcond with hk | ⟨q, hq, hkq⟩
        · rcases (mem_keysOf_setAssoc _ _ _ _).mp hk with h1 | h1
          · exact Or.inr ⟨r, List.mem_cons_self _ _, h1.symm⟩
          · exact Or.inl h1
        · exact Or.inr ⟨q, List.mem_cons_of_mem _ hq, hkq⟩
      · rintro (⟨hx, hcond⟩ | ⟨s, m, t, hrest, hx, hcond⟩)
        · rcases hcond with hk | ⟨q, hq, -⟩
          · exact absurd hk hnotk
          · exact absurd hq (List.not_mem_nil q)
        · refine ⟨s, m, t, hrest, hx, ?_⟩
          rcases hcond with hk | ⟨q, hq, hkq⟩
          · exact Or.inl ((mem_keysOf_setAssoc _ _ _ _).mpr (Or.inr hk))
          · rcases List.mem_cons.mp hq with rfl | hq2
            · exact Or.inl ((mem_keysOf_setAssoc _ _ _ _).mpr (Or.inl hkq.symm))
            · exact Or.inr ⟨q, hq2, hkq⟩
    · have hmemk : κ r ∈ keysOf seen := by
        by_contra hc
        rw [← lookupAssoc_eq_none_iff] at hc
        exact absurd (hc.symm.trans hlk) (by simp)
      simp only [keepFirstDups, hlk, List.mem_cons]
      rw [ih seen x]
      constructor
      · rintro (rfl | ⟨s, m, t, hrest, hx, hcond⟩)
        · exact Or.inl ⟨rfl, Or.inl hmemk⟩
        · refine Or.inr ⟨s, m, t, hrest, hx, ?_⟩
          rcases hcond with hk | ⟨q, hq, hkq⟩
          · exact Or.inl hk
          · exact Or.inr ⟨q, Or.inr hq, hkq⟩
      · rintro (⟨hx, -⟩ | ⟨s, m, t, hrest, hx, hcond⟩)
        · exact Or.inl hx
        · refine Or.inr ⟨s, m, t, hrest, hx, ?_⟩
          rcases hcond with hk | ⟨q, hq, hkq⟩
          · exact Or.inl hk
          · rcases hq with rfl | hq2
            · rw [hkq] at hmemk
              exact Or.inl hmemk
            · exact Or.inr ⟨q, hq2, hkq⟩

/-- Characterization of the ids collected by the `cleanDuplicateKnowledge` /
`cleanDuplicateTodos` loop: the previously-bound row of a key is collected as
soon as the key recurs, so the collected ids are the stale `seen` bindings
whose key occurs in the list, plus every row that has a *later* occurrence of
its key. -/
theorem keepLastDups_mem (κ : KRow → Str) (rows : List KRow) :
    ∀ (seen : List (Str × KRow)) (x : Nat),
    x ∈ keepLastDups κ seen rows ↔
      (∃ k v, lookupAssoc k seen = some v ∧ x = v.id ∧ ∃ q ∈ rows, κ q = k)
      ∨ ∃ s r t, rows = s ++ r :: t ∧ x = r.id ∧ ∃ q ∈ t, κ q = κ r := by
  induction rows with
  | nil =>
    intro seen x
    rw [keepLastDups]
    refine iff_of_false (List.not_mem_nil x) ?_
    rintro (⟨k, v, -, -, q, hq, -⟩ | ⟨s, r, t, h, -⟩)
    · exact List.not_mem_nil q hq
    · exact List.cons_ne_nil r t (List.append_eq_nil.mp h.symm).2
  | cons r rest ih =>
    intro seen x
    rw [cons_decomp_iff r rest (fun s m t => x = m.id ∧ ∃ q ∈ t, κ q = κ m)]
    rcases hlk : lookupAssoc (κ r) seen with _ | prev
    · simp only [keepLastDups, hlk]
      rw [ih (setAssoc (κ r) r seen) x]
      constructor
      · rintro (⟨k, v, hv, hx, q, hq, hkq⟩ | hB)
        · by_cases hk : k = κ r
          · subst hk
            rw [lookupAssoc_setAssoc_self] at hv
            obtain rfl : r = v := Option.some.inj hv
            exact Or.inr (Or.inl ⟨hx, q, hq, hkq⟩)
          · rw [lookupAssoc_setAssoc_ne _ _ _ _ hk] at hv
            exact Or.inl ⟨k, v, hv, hx, q, List.mem_cons_of_mem _ hq, hkq⟩
        · exact Or.inr (Or.inr hB)
      · rintro (⟨k, v, hv, hx, q, hq, hkq⟩ | ⟨hx, q, hq, hkq⟩ | hB)
        · by_cases hk : k = κ r
          · subst hk
            rw [hv] at hlk
            exact Option.noConfusion hlk
          · have hqr : q ∈ rest := by
              rcases List.mem_cons.mp hq with rfl | hq2
              · exact absurd hkq.symm hk
              · exact hq2
            refine Or.inl ⟨k, v, ?_, hx, q, hqr, hkq⟩
            rw [lookupAssoc_setAssoc_ne _ _ _ _ hk]
            exact hv
        · exact Or.inl ⟨κ r, r, lookupAssoc_setAssoc_self _ _ _, hx, q, hq, hkq⟩
        · exact Or.inr hB
    · simp only [keepLastDups, hlk]
      rw [List.mem_cons, ih (setAssoc (κ r) r seen) x]
      constructor
      · rintro (rfl | ⟨k, v, hv, hx, q, hq, hkq⟩ | hB)
        · exact Or.inl ⟨κ r, prev, hlk, rfl, r, List.mem_cons_self _ _, rfl⟩
        · by_cases hk : k = κ r
          · subst hk
            rw [lookupAssoc_setAssoc_self] at hv
            obtain rfl : r = v := Option.some.inj hv
            exact Or.inr (Or.inl ⟨hx, q, hq, hkq⟩)
          · rw [lookupAssoc_setAssoc_ne _ _ _ _ hk] at hv
            exact Or.inl ⟨k, v, hv, hx, q, List.mem_cons_of_mem _ hq, hkq⟩
        · exact Or.inr (Or.inr hB)
      · rintro (⟨k, v, hv, hx, q, hq, hkq⟩ | ⟨hx, q, hq, hkq⟩ | hB)
        · by_cases hk : k = κ r
          · subst hk
            rw [hv] at hlk
            obtain rfl : v = prev := Option.some.inj hlk
            exact Or.inl hx
          · have hqr : q ∈ rest := by
              rcases List.mem_cons.mp hq with rfl | hq2
              · exact absurd hkq.symm hk
              · exact hq2
            refine Or.inr (Or.inl ⟨k, v, ?_, hx, q, hqr, hkq⟩)
            rw [lookupAssoc_setAssoc_ne _ _ _ _ hk]
            exact hv
        · exact Or.inr (Or.inl ⟨κ r, r, lookupAssoc_setAssoc_self _ _ _, hx, q, hq, hkq⟩)
        · exact Or.inr (Or.inr hB)

/-- A key that occurs in a list has a last occurrence: a decomposition whose
tail is free of the key. -/
theorem exists_last_occ (κ : KRow → Str) (rows : List KRow) (k : Str)
    (h : ∃ r ∈ rows, κ r = k) :
    ∃ s f t, rows = s ++ f :: t ∧ κ f = k ∧ ∀ q ∈ t, κ q ≠ k := by
  induction rows with
  | nil =>
    obtain ⟨r, hr, -⟩ := h
    exact absurd hr (List.not_mem_nil r)
  | cons a l ih =>
    by_cases hl : ∃ r ∈ l, κ r = k
    · obtain ⟨s, f, t, h1, h2, h3⟩ := ih hl
      exact ⟨a :: s, f, t, by rw [h1, List.cons_append], h2, h3⟩
    · obtain ⟨r, hr, hk⟩ := h
      rcases List.mem_cons.mp hr with rfl | hr2
      · exact ⟨[], r, l, rfl, hk, fun q hq hqk => hl ⟨q, hq, hqk⟩⟩
      · exact absurd ⟨r, hr2, hk⟩ hl

/-- Survivor shape of a keep-first pass (`cleanAllDuplicates`): for each key
present, exactly one row survives the deletion, namely the first-listed (and,
on rows sorted by creation time ascending, earliest-created) occurrence. -/
theorem keepFirst_survivor (κ : KRow → Str) (rows : List KRow)
    (hnd : (rows.map KRow.id).Nodup)
    (hsorted : rows.Pairwise (fun a b => a.created_at < b.created_at))
    (k : Str) (hex : ∃ r ∈ rows, κ r = k) :
    ∃ f, (∀ r, (r ∈ rows.filter (fun q => decide (¬ q.id ∈ keepFirstDups κ [] rows))
          ∧ κ r = k) ↔ r = f)
      ∧ f ∈ rows ∧ κ f = k
      ∧ ∀ r ∈ rows, κ r = k → f.created_at ≤ r.created_at := by
  have hrownd : rows.Nodup := List.Nodup.of_map _ hnd
  have hinj : ∀ ⦃x⦄, x ∈ rows → ∀ ⦃y⦄, y ∈ rows → x.id = y.id → x = y :=
    List.inj_on_of_nodup_map hnd
  rcases hf : rows.find? (fun r => κ r == k) with _ | f
  · obtain ⟨r0, hr0, hk0⟩ := hex
    have := List.find?_eq_none.mp hf r0 hr0
    simp [hk0] at this
  · have hfk : κ f = k := by
      have := List.find?_some hf
      simpa using this
    have hfmem : f ∈ rows := List.mem_of_find?_eq_some hf
    obtain ⟨s, t, hrows, hs⟩ := find?_decomp hf
    have hsne : ∀ x ∈ s, κ x ≠ k := by
      intro x hx
      have := hs x hx
      simpa using this
    have hfns : f ∉ s := fun hmem => hsne f hmem hfk
    -- the first occurrence is never collected
    have hfnotdup : ¬ f.id ∈ keepFirstDups κ [] rows := by
      intro hdup
      obtain ⟨s2, r2, t2, hrows2, hid2, hcond2⟩ := (keepFirstDups_mem κ rows [] _).mp hdup
      rcases hcond2 with hk2 | ⟨q, hq, hqk⟩
      · exact absurd hk2 (List.not_mem_nil _)
      · have hr2mem : r2 ∈ rows := by
          rw [hrows2]
          exact List.mem_append.mpr (Or.inr (List.mem_cons_self _ _))
        obtain rfl : f = r2 := hinj hfmem hr2mem hid2
        have hfns2 : f ∉ s2 := by
          intro hmem
          have hd : rows.Nodup := hrownd
          rw [hrows2] at hd
          exact List.disjoint_of_nodup_append hd hmem (List.mem_cons_self _ _)
        obtain ⟨hseq, -⟩ :=
          append_cons_eq_of_not_mem (hrows.symm.trans hrows2) hfns hfns2
        subst hseq
        exact hsne q hq (hqk.trans hfk)
    have hfsurv : f ∈ rows.filter (fun q => decide (¬ q.id ∈ keepFirstDups κ [] rows)) :=
      List.mem_filter.mpr ⟨hfmem, decide_eq_true hfnotdup⟩
    refine ⟨f, ?_, hfmem, hfk, ?_⟩
    · intro r
      constructor
      · rintro ⟨hrfil, hrk⟩
        obtain ⟨hrmem, hrdec⟩ := List.mem_filter.mp hrfil
        have hrnot : ¬ r.id ∈ keepFirstDups κ [] rows := of_decide_eq_true hrdec
        by_contra hrf
        have hrloc : r ∈ s ∨ r = f ∨ r ∈ t := by
          rw [hrows] at hrmem
          rcases List.mem_append.mp hrmem with h1 | h1
          · exact Or.inl h1
          · rcases List.mem_cons.mp h1 with h2 | h2
            · exact Or.inr (Or.inl h2)
            · exact Or.inr (Or.inr h2)
        rcases hrloc with h1 | h1 | h1
        · exact hsne r h1 hrk
        · exact hrf h1
        · obtain ⟨u, v, ht⟩ := List.append_of_mem h1
          have hrows3 : rows = (s ++ f :: u) ++ r :: v := by
            rw [hrows, ht]
            simp
          apply hrnot
          refine (keepFirstDups_mem κ rows [] _).mpr
            ⟨s ++ f :: u, r, v, hrows3, rfl, Or.inr ⟨f, ?_, hfk.trans hrk.symm⟩⟩
          exact List.mem_append.mpr (Or.inr (List.mem_cons_self _ _))
      · rintro rfl
        exact ⟨hfsurv, hfk⟩
    · intro r2 hr2 hk2
      have hrloc : r2 ∈ s ∨ r2 = f ∨ r2 ∈ t := by
        rw [hrows] at hr2
        rcases List.mem_append.mp hr2 with h1 | h1
        · exact Or.inl h1
        · rcases List.mem_cons.mp h1 with h2 | h2
          · exact Or.inr (Or.inl h2)
          · exact Or.inr (Or.inr h2)
      rcases hrloc with h1 | h1 | h1
      · exact absurd hk2 (hsne r2 h1)
      · rw [h1]
      · rw [hrows] at hsorted
        have := (List.pairwise_cons.mp (List.pairwise_append.mp hsorted).2.1).1 r2 h1
        exact this.le

/-- Survivor shape of a keep-last pass (`cleanDuplicateKnowledge`,
`cleanDuplicateTodos`): for each key present, exactly one row survives, namely
the last-listed (latest-created) occurrence. -/
theorem keepLast_survivor (κ : KRow → Str) (rows : List KRow)
    (hnd : (rows.map KRow.id).Nodup)
    (hsorted : rows.Pairwise (fun a b => a.created_at < b.created_at))
    (k : Str) (hex : ∃ r ∈ rows, κ r = k) :
    ∃ f, (∀ r, (r ∈ rows.filter (fun q => decide (¬ q.id ∈ keepLastDups κ [] rows))
          ∧ κ r = k) ↔ r = f)
      ∧ f ∈ rows ∧ κ f = k
      ∧ ∀ r ∈ rows, κ r = k → r.created_at ≤ f.created_at := by
  have hrownd : rows.Nodup := List.Nodup.of_map _ hnd
  have hinj : ∀ ⦃x⦄, x ∈ rows → ∀ ⦃y⦄, y ∈ rows → x.id = y.id → x = y :=
    List.inj_on_of_nodup_map hnd
  obtain ⟨s, f, t, hrows, hfk, htfree⟩ := exists_last_occ κ rows k hex
  have hfmem : f ∈ rows := by
    rw [hrows]
    exact List.mem_append.mpr (Or.inr (List.mem_cons_self _ _))
  have hfns : f ∉ s := by
    intro hmem
    have hd : rows.Nodup := hrownd
    rw [hrows] at hd
    exact List.disjoint_of_nodup_append hd hmem (List.mem_cons_self _ _)
  -- the last occurrence is never collected
  have hfnotdup : ¬ f.id ∈ keepLastDups κ [] rows := by
    intro hdup
    rcases (keepLastDups_mem κ rows [] _).mp hdup with
      ⟨k2, v, hv, -, -⟩ | ⟨s2, r2, t2, hrows2, hid2, q, hq, hqk⟩
    · rw [lookupAssoc] at hv
      exact Option.noConfusion hv
    · have hr2mem : r2 ∈ rows := by
        rw [hrows2]
        exact List.mem_append.mpr (Or.inr (List.mem_cons_self _ _))
      obtain rfl : f = r2 := hinj hfmem hr2mem hid2
      have hfns2 : f ∉ s2 := by
        intro hmem
        have hd : rows.Nodup := hrownd
        rw [hrows2] at hd
        exact List.disjoint_of_nodup_append hd hmem (List.mem_cons_self _ _)
      obtain ⟨-, hteq⟩ :=
        append_cons_eq_of_not_mem (hrows.symm.trans hrows2) hfns hfns2
      subst hteq
      exact htfree q hq (hqk.trans hfk)
  have hfsurv : f ∈ rows.filter (fun q => decide (¬ q.id ∈ keepLastDups κ [] rows)) :=
    List.mem_filter.mpr ⟨hfmem, decide_eq_true hfnotdup⟩
  refine ⟨f, ?_, hfmem, hfk, ?_⟩
  · intro r
    constructor
    · rintro ⟨hrfil, hrk⟩
      obtain ⟨hrmem, hrdec⟩ := List.mem_filter.mp hrfil
      have hrnot : ¬ r.id ∈ keepLastDups κ [] rows := of_decide_eq_true hrdec
      by_contra hrf
      have hrloc : r ∈ s ∨ r = f ∨ r ∈ t := by
        rw [hrows] at hrmem
        rcases List.mem_append.mp hrmem with h1 | h1
        · exact Or.inl h1
        · rcases List.mem_cons.mp h1 with h2 | h2
          · exact Or.inr (Or.inl h2)
          · exact Or.inr (Or.inr h2)
      rcases hrloc with h1 | h1 | h1
      · obtain ⟨u, v, hsplit⟩ := List.append_of_mem h1
        have hrows3 : rows = u ++ r :: (v ++ f :: t) := by
          rw [hrows, hsplit]
          simp
        apply hrnot
        refine (keepLastDups_mem κ rows [] _).mpr
          (Or.inr ⟨u, r, v ++ f :: t, hrows3, rfl, f, ?_, hfk.trans hrk.symm⟩)
        exact List.mem_append.mpr (Or.inr (List.mem_cons_self _ _))
      · exact hrf h1
      · exact htfree r h1 hrk
    · rintro rfl
      exact ⟨hfsurv, hfk⟩
  · intro r2 hr2 hk2
    have hrloc : r2 ∈ s ∨ r2 = f ∨ r2 ∈ t := by
      rw [hrows] at hr2
      rcases List.mem_append.mp hr2 with h1 | h1
      · exact Or.inl h1
      · rcases List.mem_cons.mp h1 with h2 | h2
        · exact Or.inr (Or.inl h2)
        · exact Or.inr (Or.inr h2)
    rcases hrloc with h1 | h1 | h1
    · rw [hrows] at hsorted
      have := (List.pairwise_append.mp hsorted).2.2 r2 h1 f (List.mem_cons_self _ _)
      exact this.le
    · rw [h1]
    · exact absurd hk2 (htfree r2 h1)

/-- C2 counterexample: `cleanDuplicateKnowledge` on two rows sharing a key
(loaded in creation order, distinct ids) deletes the *first-created* row and
keeps the later one — not the earliest as the claim states. -/
theorem knowledge_sweep_deletes_first_created :
    cleanDuplicateKnowledgeRun [rowA, rowB] = [rowB]
    ∧ kKey rowA = kKey rowB
    ∧ rowA.created_at < rowB.created_at
    ∧ ([rowA, rowB].map KRow.id).Nodup
    ∧ [rowA, rowB].Pairwise (fun a b => a.created_at < b.created_at) := by
  decide

/-- C2 (amended): on rows loaded in creation-time order with distinct ids,
each table pass of `cleanAllDuplicates` leaves exactly one row per duplicate
key and it is the first-created occurrence; the `cleanDuplicateKnowledge`
pass (same loop as `cleanDuplicateTodos`) also leaves exactly one row per key,
but it is the *last-created* occurrence — every earlier occurrence is the one
deleted. -/
theorem dedup_sweep_survivors (rows : List KRow)
    (hnd : (rows.map KRow.id).Nodup)
    (hsorted : rows.Pairwise (fun a b => a.created_at < b.created_at)) :
    (∀ k, (∃ r ∈ rows, allKey r = k) →
      ∃ f, (∀ r, (r ∈ cleanAllDuplicatesRun rows ∧ allKey r = k) ↔ r = f)
        ∧ f ∈ rows ∧ allKey f = k
        ∧ ∀ r ∈ rows, allKey r = k → f.created_at ≤ r.created_at)
    ∧ (∀ k, (∃ r ∈ rows, kKey r = k) →
      ∃ f, (∀ r, (r ∈ cleanDuplicateKnowledgeRun rows ∧ kKey r = k) ↔ r = f)
        ∧ f ∈ rows ∧ kKey f = k
        ∧ ∀ r ∈ rows, kKey r = k → r.created_at ≤ f.created_at) :=
  ⟨fun k hex => keepFirst_survivor allKey rows hnd hsorted k hex,
   fun k hex => keepLast_survivor kKey rows hnd hsorted k hex⟩

/-- Witness for `dedup_sweep_survivors` at the two concrete duplicate rows. -/
theorem dedup_sweep_survivors_witness :
    (([rowA, rowB].map KRow.id).Nodup
      ∧ [rowA, rowB].Pairwise (fun a b => a.created_at < b.created_at)
      ∧ (∃ r ∈ [rowA, rowB], kKey r = kKey rowA))
    ∧ ∃ f, (∀ r, (r ∈ cleanDuplicateKnowledgeRun [rowA, rowB] ∧ kKey r = kKey rowA) ↔ r = f)
        ∧ f ∈ [rowA, rowB] ∧ kKey f = kKey rowA
        ∧ ∀ r ∈ [rowA, rowB], kKey r = kKey rowA → r.created_at ≤ f.created_at :=
  ⟨⟨by decide, by decide, by decide⟩,
   (dedup_sweep_survivors [rowA, rowB] (by decide) (by decide)).2 (kKey rowA) (by decide)⟩

/-- C1: flagging a valid conflict appends exactly one pending conflict row and
one notification row; the typed tables — in particular the referenced existing
record — are byte-for-byte unchanged. -/
theorem flag_conflict_pure_append (st : SusanState) (r : FlagRequest) (newId now : Nat)
    (ht : r.existing_table ≠ "") (hi : r.existing_id ≠ "") (hc : r.new_content ≠ "") :
    ∃ c n, flagConflict st r newId now =
        .ok ({ conflicts := st.conflicts ++ [c],
               notifications := st.notifications ++ [n],
               tables := st.tables }, c)
      ∧ c.status = "pending"
      ∧ n.status = "unread"
      ∧ n.related_id = c.id := by
  rw [flagConflict, if_neg (by tauto)]
  exact ⟨_, _, rfl, rfl, rfl, rfl⟩

/-- C5: a second resolve call on a conflict whose status is no longer
`pending` returns the explicit "already resolved" error and performs no
mutation whatsoever: the state is returned unchanged, so the first
resolution's recorded status, resolver and timestamp stand. -/
theorem resolve_already_resolved_no_effect (st : SusanState) (r : ResolveRequest)
    (newRowId : String) (now : Nat) (cid : Nat) (c : ConflictRow)
    (hcid : r.conflict_id = some cid)
    (hdev : r.dev_id ≠ "")
    (hres : r.resolution = "keep_existing" ∨ r.resolution = "update"
      ∨ r.resolution = "both_valid" ∨ r.resolution = "dismiss")
    (hfind : st.conflicts.find? (fun q => q.id == cid) = some c)
    (hstatus : c.status ≠ "pending") :
    resolveConflict st r newRowId now = (.alreadyResolved c.status, st)
    ∧ (resolveConflict st r newRowId now).2.conflicts.find? (fun q => q.id == cid)
        = some c := by
  have hresne : r.resolution ≠ "" := by
    rcases hres with h | h | h | h <;> rw [h] <;> decide
  have hnotor : ¬ (r.dev_id = "" ∨ r.resolution = "") := by
    intro hor
    rcases hor with h | h
    · exact hdev h
    · exact hresne h
  have heq : resolveConflict st r newRowId now = (.alreadyResolved c.status, st) := by
    simp only [resolveConflict, hcid, if_neg hnotor, if_neg (not_not.mpr hres), hfind,
      if_pos hstatus]
  exact ⟨heq, by rw [heq]; exact hfind⟩

/-- Witness for `flag_conflict_pure_append` at a concrete state holding the
referenced knowledge record. -/
theorem flag_conflict_pure_append_witness :
    (flagReqEx.existing_table ≠ "" ∧ flagReqEx.existing_id ≠ ""
      ∧ flagReqEx.new_content ≠ "")
    ∧ ∃ c n, flagConflict flagStateEx flagReqEx 7 100 =
        .ok ({ conflicts := flagStateEx.conflicts ++ [c],
               notifications := flagStateEx.notifications ++ [n],
               tables := flagStateEx.tables }, c)
      ∧ c.status = "pending" ∧ n.status = "unread" ∧ n.related_id = c.id :=
  ⟨⟨by decide, by decide, by decide⟩,
   flag_conflict_pure_append flagStateEx flagReqEx 7 100
     (by decide) (by decide) (by decide)⟩

/-- Witness for `resolve_already_resolved_no_effect`: re-resolving the already
resolved conflict `3` errors and changes nothing. -/
theorem resolve_already_resolved_no_effect_witness :
    (resolveReqEx.conflict_id = some 3
      ∧ resolveReqEx.dev_id ≠ ""
      ∧ (resolveReqEx.resolution = "keep_existing" ∨ resolveReqEx.resolution = "update"
          ∨ resolveReqEx.resolution = "both_valid" ∨ resolveReqEx.resolution = "dismiss")
      ∧ resolveStateEx.conflicts.find? (fun q => q.id == 3) = some resolvedConflictEx
      ∧ resolvedConflictEx.status ≠ "pending")
    ∧ resolveConflict resolveStateEx resolveReqEx "new-row" 200
        = (.alreadyResolved resolvedConflictEx.status, resolveStateEx)
    ∧ (resolveConflict resolveStateEx resolveReqEx "new-row" 200).2.conflicts.find?
        (fun q => q.id == 3) = some resolvedConflictEx :=
  ⟨⟨rfl, by decide, by decide, by decide, by decide⟩,
   (resolve_already_resolved_no_effect resolveStateEx resolveReqEx "new-row" 200 3
     resolvedConflictEx rfl (by decide) (by decide) (by decide) (by decide)).1,
   (resolve_already_resolved_no_effect resolveStateEx resolveReqEx "new-row" 200 3
     resolvedConflictEx rfl (by decide) (by decide) (by decide) (by decide)).2⟩

/-- C6 counterexample: resolution fails (no registered path matches), yet the
todo written by `insertTodo` carries the hard-coded default project path
instead of null. -/
theorem todo_insert_defaults_project_path :
    findProjectForPath "/unregistered/x".toList [] = none
    ∧ ("project_path", JsVal.s "/var/www/NextBid_Dev/dev-studio-5000".toList)
        ∈ insertTodoPayload qex none ⟨none, none, none⟩
    ∧ JsVal.s "/var/www/NextBid_Dev/dev-studio-5000".toList ≠ JsVal.nul := by
  decide

/-- C6 (amended): when no registered path is a prefix of the normalized raw
path, the resolver returns null; the knowledge insert leaves the path column
null in that case, but the todo insert substitutes the hard-coded
`/var/www/NextBid_Dev/dev-studio-5000` default for a missing path. -/
theorem resolver_null_but_todo_gets_default (itemPath : Str)
    (pathLookup : List PathEntry)
    (hnone : ∀ p ∈ pathLookup, isPre p.path (normalizePath itemPath) = false) :
    findProjectForPath itemPath pathLookup = none
    ∧ (∀ e routing, ("project_path",
          JsVal.s "/var/www/NextBid_Dev/dev-studio-5000".toList)
        ∈ insertTodoPayload e none routing)
    ∧ (∀ e routing, ("project_path", JsVal.nul) ∈ insertKnowledgePayload e none routing) := by
  refine ⟨?_, ?_, ?_⟩
  · by_cases hip : itemPath = []
    · rw [findProjectForPath, if_pos hip]
    · have h1 : pathLookup.find? (fun p => normalizePath itemPath == p.path) = none := by
        apply List.find?_eq_none.mpr
        intro p hp
        simp only [beq_iff_eq]
        intro he
        have hr := isPre_refl p.path
        have hf := hnone p hp
        rw [he] at hf
        rw [hf] at hr
        exact Bool.noConfusion hr
      have h2 : pathLookup.find? (fun p =>
          isPre (p.path ++ ['/']) (normalizePath itemPath)
          || isPre p.path (normalizePath itemPath)) = none := by
        apply List.find?_eq_none.mpr
        intro p hp
        simp only [Bool.or_eq_true, not_or]
        constructor
        · intro h
          have := isPre_of_append h
          rw [hnone p hp] at this
          exact Bool.noConfusion this
        · intro h
          rw [hnone p hp] at h
          exact Bool.noConfusion h
      simp only [findProjectForPath, if_neg hip, h1, h2]
  · intro e routing
    simp [insertTodoPayload, orDefaultStudioPath]
  · intro e routing
    simp [insertKnowledgePayload, optStrVal]

/-- Witness for `resolver_null_but_todo_gets_default` with one registered path
that does not match the raw path. -/
theorem resolver_null_but_todo_gets_default_witness :
    (∀ p ∈ [entryParent], isPre p.path (normalizePath "/unregistered/x".toList) = false)
    ∧ (findProjectForPath "/unregistered/x".toList [entryParent] = none
      ∧ (∀ e routing, ("project_path",
            JsVal.s "/var/www/NextBid_Dev/dev-studio-5000".toList)
          ∈ insertTodoPayload e none routing)
      ∧ (∀ e routing, ("project_path", JsVal.nul) ∈ insertKnowledgePayload e none routing)) :=
  ⟨by decide,
   resolver_null_but_todo_gets_default "/unregistered/x".toList [entryParent] (by decide)⟩

/-- C7 counterexample: the destination table already holds a record with the
same scope and a matching title head, yet routing the identical fragment again
inserts a second row — the sorter has no pre-insert dedup guard. -/
theorem sorter_inserts_despite_existing_duplicate :
    (∃ row ∈ dupTable, row.project_path = some "/var/www/p".toList
      ∧ containsCI row.title ((firstLine200 dupExtraction.content).take 30) = true)
    ∧ (insertKnowledgeStep dupTable dupExtraction (some "/var/www/p".toList)
        ⟨none, none, none⟩).length = 2
    ∧ insertKnowledgeStep dupTable dupExtraction (some "/var/www/p".toList)
        ⟨none, none, none⟩ ≠ dupTable := by
  decide

/-- C7 (amended): the pre-insert title-prefix dedup guard exists only in the
quick-parse todo-mention loop — an existing same-scope match there skips the
insert; the extraction sorter's knowledge insert appends unconditionally. -/
theorem dedup_guard_only_in_quick_parse (todos : List TodoRow)
    (projectPath todoText : Str) (routing : RoutingInfo) (now : Nat)
    (hex : ∃ t ∈ todos, (t.project_path == projectPath
        && containsCI t.title (todoText.take 30)) = true) :
    quickParseTodoStep todos projectPath todoText routing now = todos
    ∧ ∀ (tbl : List KnowledgeTRow) (e : Extraction) (pp : Option Str) (r : RoutingInfo),
        (insertKnowledgeStep tbl e pp r).length = tbl.length + 1 := by
  constructor
  · rcases hfind : todos.find? (fun t => t.project_path == projectPath
        && containsCI t.title (todoText.take 30)) with _ | t
    · obtain ⟨t, ht, hp⟩ := hex
      have := List.find?_eq_none.mp hfind t ht
      exact absurd hp (by simpa using this)
    · simp only [quickParseTodoStep, hfind]
  · intro tbl e pp r
    simp [insertKnowledgeStep]

/-- Witness for `dedup_guard_only_in_quick_parse`: a stored todo whose title
contains the incoming mention's head, so the insert is skipped. -/
theorem dedup_guard_only_in_quick_parse_witness :
    (∃ t ∈ [qpTodoEx], (t.project_path == "/var/www/p".toList
        && containsCI t.title ("fix login retry".toList.take 30)) = true)
    ∧ (quickParseTodoStep [qpTodoEx] "/var/www/p".toList "fix login retry".toList
        ⟨none, none, none⟩ 5 = [qpTodoEx]
      ∧ ∀ (tbl : List KnowledgeTRow) (e : Extraction) (pp : Option Str) (r : RoutingInfo),
          (insertKnowledgeStep tbl e pp r).length = tbl.length + 1) :=
  ⟨by decide,
   dedup_guard_only_in_quick_parse [qpTodoEx] "/var/www/p".toList
     "fix login retry".toList ⟨none, none, none⟩ 5 (by decide)⟩

/-- C9 counterexample: a detection with confidence `0.5` above the gate leads
to an update whose columns are exactly the three attribution columns — no
`confidence` column is persisted, and the knowledge insert has none either. -/
theorem pipeline_drops_confidence :
    rerouteItemStep (some detEx)
      = some [("project_id", JsVal.id "p1"), ("client_id", JsVal.id "c1"),
              ("project_path", JsVal.s "/var/www/p".toList)]
    ∧ ¬ "confidence" ∈ (rerouteUpdatePayload detEx).map Prod.fst
    ∧ ¬ "confidence" ∈ (insertKnowledgePayload dupExtraction
        (some "/var/www/p".toList) ⟨none, none, none⟩).map Prod.fst
    ∧ detEx.confidence = 1/2 := by
  refine ⟨by with_unfolding_all decide, by decide, by decide,
    by with_unfolding_all decide⟩

/-- C9 (amended): records written by the automated pipeline do not carry the
detection confidence: the knowledge insert persists exactly the content,
category, session and attribution columns, and the batch rerouter writes only
`project_id`/`client_id`/`project_path`, using the confidence solely as its
`>= 0.2` gate. -/
theorem pipeline_confidence_not_persisted (e : Extraction) (pp : Option Str)
    (routing : RoutingInfo) (d : DetectedProj) :
    (insertKnowledgePayload e pp routing).map Prod.fst =
      ["project_path", "title", "content", "category", "source_session_id",
       "client_id", "platform_id", "project_id"]
    ∧ (∀ pay, rerouteItemStep (some d) = some pay →
        pay.map Prod.fst = ["project_id", "client_id", "project_path"])
    ∧ (d.confidence < MIN_CONFIDENCE → rerouteItemStep (some d) = none) := by
  refine ⟨by simp [insertKnowledgePayload], ?_, ?_⟩
  · intro pay h
    by_cases hc : d.project_id ≠ "" ∧ MIN_CONFIDENCE ≤ d.confidence
    · simp only [rerouteItemStep, if_pos hc] at h
      obtain rfl : rerouteUpdatePayload d = pay := Option.some.inj h
      simp [rerouteUpdatePayload]
    · simp only [rerouteItemStep, if_neg hc] at h
      exact Option.noConfusion h
  · intro hlt
    have hc : ¬ (d.project_id ≠ "" ∧ MIN_CONFIDENCE ≤ d.confidence) := by
      intro hc
      exact absurd hlt (not_lt.mpr hc.2)
    simp only [rerouteItemStep, if_neg hc]

end Susan
